import Mathlib

/-!
Verification of the SteamGameRecSys core: catalog items, the review-rating
classifier from the frontend source, and the preference / cache /
recommendation engines described in the design specification.

Machine integers of the source are modelled as `Nat` / `Int`, review-ratio
arithmetic as exact rationals (`ℚ`), timestamps as seconds (`Nat`), and
fallible operations as `Except` values.
-/

namespace SteamRec

/-- A catalog item, after the `games` record of the source
(`app_id`, `name`, `price`, `genres`, `positive_reviews`, `negative_reviews`). -/
structure Item where
  app_id : Nat
  name : String
  price : ℚ
  genres : List String
  positive_reviews : Nat
  negative_reviews : Nat
  deriving DecidableEq, Repr

/-- Result record of `getReviewRating`: a label string and a percentage. -/
structure Rating where
  label : String
  percentage : ℚ
  deriving DecidableEq, Repr

/-- Translation of `getReviewRating` from the GameExplorer/Wishlist components:
`total = positive + negative`; when `total === 0` the result is
`{ label: 'No Reviews', percentage: 0 }`, otherwise
`percentage = (positive / total) * 100` and the label is picked by the
cascade of threshold tests on `percentage` and `total`. -/
def getReviewRating (positive negative : Nat) : Rating :=
  let total := positive + negative
  if total = 0 then ⟨"No Reviews", 0⟩
  else
    let percentage : ℚ := ((positive : ℚ) / (total : ℚ)) * 100
    if 95 ≤ percentage ∧ 500 ≤ total then ⟨"Overwhelmingly Positive", percentage⟩
    else if 80 ≤ percentage then ⟨"Very Positive", percentage⟩
    else if 70 ≤ percentage ∧ 50 ≤ total then ⟨"Positive", percentage⟩
    else if 70 ≤ percentage then ⟨"Mostly Positive", percentage⟩
    else if 40 ≤ percentage then ⟨"Mixed", percentage⟩
    else if 20 ≤ percentage then ⟨"Mostly Negative", percentage⟩
    else if percentage < 20 ∧ 500 ≤ total then ⟨"Overwhelmingly Negative", percentage⟩
    else ⟨"Negative", percentage⟩

/-- The nine label strings `getReviewRating` can produce. -/
def ratingLabels : List String :=
  ["No Reviews", "Overwhelmingly Positive", "Very Positive", "Positive",
   "Mostly Positive", "Mixed", "Mostly Negative", "Overwhelmingly Negative", "Negative"]

/-- Modelled from the spec: the per-user `PreferenceProfile` of the Preference
Store (`genre_weights` as a finite tag-to-weight table, `clicked_games` as an
ordered most-recent-last list); the backend store itself
(`backend/app/local_storage.py`) is not part of the visible sources. -/
structure Profile where
  weights : List (String × Int)
  clicked : List Nat
  deriving DecidableEq, Repr

/-- The profile of an unknown user: all weights zero, empty history. -/
def emptyProfile : Profile := ⟨[], []⟩

/-- Weight of a tag in a weight table, missing tags counting as 0. -/
def weightOf : List (String × Int) → String → Int
  | [], _ => 0
  | (t, w) :: rest, tag => if t = tag then w else weightOf rest tag

/-- Overwrite (or add) the entry of `tag` in a weight table. -/
def setWeight : List (String × Int) → String → Int → List (String × Int)
  | [], tag, v => [(tag, v)]
  | (t, w) :: rest, tag, v =>
    if t = tag then (tag, v) :: rest else (t, w) :: setWeight rest tag v

/-- Clamp a weight into the interval `[-wmax, wmax]`. -/
def clampW (wmax w : Int) : Int := max (-wmax) (min wmax w)

/-- Increment one tag's weight by `delta`, clamping at `wmax`. -/
def bump (wmax delta : Int) (ws : List (String × Int)) (tag : String) :
    List (String × Int) :=
  setWeight ws tag (clampW wmax (weightOf ws tag + delta))

/-- Modelled from the spec: the clicked-items update of `recordClick` — remove
any earlier occurrence of the identifier, append it at the most-recent end,
and trim the oldest entries beyond the `N_HISTORY` bound `nhist`. -/
def pushClick (nhist : Nat) (cl : List Nat) (i : Nat) : List Nat :=
  let grown := cl.filter (fun x => decide (x ≠ i)) ++ [i]
  grown.drop (grown.length - nhist)

/-- Modelled from the spec: `recordClick(user_id, item)` of the Preference
Engine (missing from the visible sources, which only hold its frontend caller
`recordGameClick`): for every category tag on the item, increment that tag's
weight by `delta` clamping at `wmax`, and push the identifier onto the
clicked-items sequence bounded by `nhist`. -/
def recordClick (wmax delta : Int) (nhist : Nat) (it : Item) (p : Profile) : Profile :=
  { weights := it.genres.foldl (bump wmax delta) p.weights
    clicked := pushClick nhist p.clicked it.app_id }

/-- Fold a sequence of clicks over a profile, oldest click first. -/
def applyClicks (wmax delta : Int) (nhist : Nat) (p : Profile) (clicks : List Item) :
    Profile :=
  clicks.foldl (fun q it => recordClick wmax delta nhist it q) p

/-- Review ratio `positive / (positive + negative)`, with `0/0` treated as 0,
as used by the recommendation tie-break. -/
def ratioQ (it : Item) : ℚ :=
  if it.positive_reviews + it.negative_reviews = 0 then 0
  else (it.positive_reviews : ℚ) / ((it.positive_reviews + it.negative_reviews : Nat) : ℚ)

/-- Personalization score: sum of the profile weights of the item's tags,
missing weights counting as 0. -/
def score (p : Profile) (it : Item) : Int :=
  (it.genres.map (weightOf p.weights)).sum

/-- Modelled from the spec: the ranking preorder of the Recommendation Engine —
`a` is ranked no later than `b` iff `a` has higher score, or equal score and
higher review ratio, or equal score and ratio and a lower-or-equal identifier. -/
def rankLE (p : Profile) (a b : Item) : Prop :=
  score p b < score p a ∨
    (score p a = score p b ∧
      (ratioQ b < ratioQ a ∨ (ratioQ a = ratioQ b ∧ a.app_id ≤ b.app_id)))

/-- Strict version of `rankLE`: the identifier tie-break is strict. -/
def rankLT (p : Profile) (a b : Item) : Prop :=
  score p b < score p a ∨
    (score p a = score p b ∧
      (ratioQ b < ratioQ a ∨ (ratioQ a = ratioQ b ∧ a.app_id < b.app_id)))

/-- The pure review-ratio tie-break order, written from the spec's words for
the empty-profile fallback: higher ratio first, then lower identifier. -/
def ratioTieLE (a b : Item) : Prop :=
  ratioQ b < ratioQ a ∨ (ratioQ a = ratioQ b ∧ a.app_id ≤ b.app_id)

instance rankLEDec (p : Profile) : DecidableRel (rankLE p) := fun a b => by
  unfold rankLE; exact inferInstance

instance rankLTDec (p : Profile) : DecidableRel (rankLT p) := fun a b => by
  unfold rankLT; exact inferInstance

/-- Drop every item whose identifier was already seen, keeping first
occurrences (helper of `dedupeById`). -/
def dedupeByIdAux : List Nat → List Item → List Item
  | _, [] => []
  | seen, it :: rest =>
    if it.app_id ∈ seen then dedupeByIdAux seen rest
    else it :: dedupeByIdAux (it.app_id :: seen) rest

/-- Keep the first item of each identifier, dropping later duplicates. -/
def dedupeById (l : List Item) : List Item := dedupeByIdAux [] l

/-- Modelled from the spec: `recommend(user_id, candidate_pool, limit)` of the
Recommendation Engine (the backend implementation is not among the visible
sources). Each candidate is resolved through the Cache Coordinator (`resolve`;
unresolvable items are dropped), duplicates by identifier are removed, items
whose identifier is in the profile's clicked-items sequence are excluded, the
rest is ordered by score with the review-ratio and identifier tie-breaks, and
the first `limit` items are returned. -/
def recommend (p : Profile) (resolve : Item → Option Item) (pool : List Item)
    (limit : Nat) : List Item :=
  let resolved := pool.filterMap resolve
  let deduped := dedupeById resolved
  let eligible := deduped.filter (fun it => decide (it.app_id ∉ p.clicked))
  (List.insertionSort (rankLE p) eligible).take limit

/-- Outcome of one remote catalog fetch, as seen by the Cache Coordinator. -/
inductive FetchResult where
  | found : Item → FetchResult
  | notFound : FetchResult
  | remoteUnavailable : FetchResult
  deriving DecidableEq, Repr

/-- Typed failure of a coordinated cache read. -/
inductive CacheError where
  | notFound : CacheError
  | remoteUnavailable : CacheError
  deriving DecidableEq, Repr

/-- A cache row: an item snapshot plus the `cached_at` timestamp. -/
structure CacheEntry where
  item : Item
  cached_at : Nat
  deriving DecidableEq, Repr

/-- The Local Cache Store, keyed by item identifier. -/
def CacheStore : Type := List (Nat × CacheEntry)

/-- Look an identifier up in the cache store. -/
def lookupC : CacheStore → Nat → Option CacheEntry
  | [], _ => none
  | (k, e) :: rest, i => if k = i then some e else lookupC rest i

/-- Write (overwriting any prior entry) an entry for an identifier. -/
def setC : CacheStore → Nat → CacheEntry → CacheStore
  | [], i, e => [(i, e)]
  | (k, e') :: rest, i, e =>
    if k = i then (i, e) :: rest else (k, e') :: setC rest i e

/-- Remove any entry for an identifier. -/
def evictC (c : CacheStore) (i : Nat) : CacheStore :=
  c.filter (fun kv => decide (kv.1 ≠ i))

/-- The `cache_ttl = 3600` constant of the source (seconds). -/
def cache_ttl : Nat := 3600

/-- An entry is fresh iff `now - cached_at < ttl` (clock in seconds). -/
def freshB (ttl now ca : Nat) : Bool := decide (now - ca < ttl)

/-- True when the store holds no fresh entry for `i` (miss or stale entry). -/
def staleOrMissB (ttl now : Nat) (c : CacheStore) (i : Nat) : Bool :=
  match lookupC c i with
  | none => true
  | some e => ! freshB ttl now e.cached_at

/-- Modelled from the spec: `getCachedItem` as run by the Cache Coordinator
(the backend coordinator is not among the visible sources; the sources fix only
the `cache_ttl` constant and the `game_cache` table). A fresh entry is returned
without a fetch; on a miss or stale entry one fetch is attempted: success
overwrites the entry, `RemoteUnavailable` falls back to the stale entry if one
exists and otherwise propagates, `NotFound` evicts and propagates. The third
component counts the Catalog Client fetches performed (0 or 1). -/
def getCachedItem (ttl : Nat) (fetch : Nat → FetchResult) (now : Nat)
    (c : CacheStore) (i : Nat) : Except CacheError Item × CacheStore × Nat :=
  match lookupC c i with
  | some e =>
    if freshB ttl now e.cached_at then (Except.ok e.item, c, 0)
    else
      match fetch i with
      | FetchResult.found it => (Except.ok it, setC c i ⟨it, now⟩, 1)
      | FetchResult.remoteUnavailable => (Except.ok e.item, c, 1)
      | FetchResult.notFound => (Except.error CacheError.notFound, evictC c i, 1)
  | none =>
    match fetch i with
    | FetchResult.found it => (Except.ok it, setC c i ⟨it, now⟩, 1)
    | FetchResult.remoteUnavailable => (Except.error CacheError.remoteUnavailable, c, 1)
    | FetchResult.notFound => (Except.error CacheError.notFound, evictC c i, 1)

/-- Item A of the empty-profile scenario: no reviews at all. -/
def itemA : Item := ⟨1, "A", 0, [], 0, 0⟩

/-- Item B of the empty-profile scenario: 90 positive, 10 negative reviews. -/
def itemB : Item := ⟨2, "B", 0, [], 90, 10⟩

/-- Item 42 of the degraded-mode scenario. -/
def item42 : Item := ⟨42, "FortyTwo", 0, ["Action"], 10, 2⟩

/-- A single-tag item used in the click-storm scenario. -/
def itemAction : Item := ⟨730, "CS2", 0, ["Action"], 500000, 20000⟩

/-- The identity resolver: every candidate resolves to itself. -/
def resolveId : Item → Option Item := fun it => some it

/-- Every weight of the table lies in `[-wmax, wmax]`. -/
def boundedW (wmax : Int) (ws : List (String × Int)) : Prop :=
  ∀ t, -wmax ≤ weightOf ws t ∧ weightOf ws t ≤ wmax

/-- Item 99 of the eviction scenario. -/
def item99 : Item := ⟨99, "NinetyNine", 0, ["RPG"], 3, 4⟩

/-- A catalog behaviour that always reports `RemoteUnavailable`. -/
def fetchUnavailable : Nat → FetchResult := fun _ => FetchResult.remoteUnavailable

/-- A catalog behaviour that always reports `NotFound`. -/
def fetchNotFound : Nat → FetchResult := fun _ => FetchResult.notFound

/-- A catalog behaviour that always returns `item42`. -/
def fetchFound42 : Nat → FetchResult := fun _ => FetchResult.found item42

/-- A store holding a two-hour-old snapshot of item 42 (cached at time 0). -/
def staleCache42 : CacheStore := [(42, ⟨item42, 0⟩)]

/-- A store holding a two-hour-old snapshot of item 99 (cached at time 0). -/
def staleCache99 : CacheStore := [(99, ⟨item99, 0⟩)]

/-- The empty cache store (first-run state). -/
def emptyCache : CacheStore := []

end SteamRec

namespace SteamRec

theorem weightOf_setWeight (ws : List (String × Int)) (tag : String) (v : Int)
    (tag' : String) :
    weightOf (setWeight ws tag v) tag' = if tag = tag' then v else weightOf ws tag' := by
  induction ws with
  | nil => simp [setWeight, weightOf]
  | cons hd tl ih =>
    obtain ⟨t, w⟩ := hd
    by_cases h : t = tag
    · subst h
      by_cases h2 : t = tag' <;> simp [setWeight, weightOf, h2]
    · by_cases h2 : t = tag'
      · subst h2
        have h3 : tag ≠ t := fun he => h he.symm
        simp [setWeight, h, weightOf, h3]
      · simp [setWeight, h, weightOf, h2, ih]

theorem clampW_bounds (wmax w : Int) (hw : 0 ≤ wmax) :
    -wmax ≤ clampW wmax w ∧ clampW wmax w ≤ wmax := by
  unfold clampW; omega

theorem boundedW_nil (wmax : Int) (hw : 0 ≤ wmax) : boundedW wmax [] := by
  intro t
  simp [weightOf]
  omega

theorem bump_bounded (wmax delta : Int) (ws : List (String × Int)) (tag : String)
    (hw : 0 ≤ wmax) (hb : boundedW wmax ws) : boundedW wmax (bump wmax delta ws tag) := by
  intro t
  unfold bump
  rw [weightOf_setWeight]
  by_cases h : tag = t
  · simpa [h] using clampW_bounds wmax (weightOf ws tag + delta) hw
  · simpa [h] using hb t

theorem foldl_bump_bounded (wmax delta : Int) (genres : List String)
    (ws : List (String × Int)) (hw : 0 ≤ wmax) (hb : boundedW wmax ws) :
    boundedW wmax (genres.foldl (bump wmax delta) ws) := by
  induction genres generalizing ws with
  | nil => exact hb
  | cons g gs ih => exact ih _ (bump_bounded wmax delta ws g hw hb)

theorem applyClicks_bounded (wmax delta : Int) (nhist : Nat) (p : Profile)
    (clicks : List Item) (hw : 0 ≤ wmax) (hb : boundedW wmax p.weights) :
    boundedW wmax (applyClicks wmax delta nhist p clicks).weights := by
  induction clicks generalizing p with
  | nil => exact hb
  | cons c cs ih =>
    exact ih (recordClick wmax delta nhist c p)
      (foldl_bump_bounded wmax delta c.genres p.weights hw hb)

theorem weightOf_bump_self (wmax delta : Int) (ws : List (String × Int)) (tag : String) :
    weightOf (bump wmax delta ws tag) tag = clampW wmax (weightOf ws tag + delta) := by
  unfold bump
  rw [weightOf_setWeight]
  simp

theorem weightOf_bump_ne (wmax delta : Int) (ws : List (String × Int)) (tag tag' : String)
    (h : tag ≠ tag') :
    weightOf (bump wmax delta ws tag) tag' = weightOf ws tag' := by
  unfold bump
  rw [weightOf_setWeight]
  simp [h]

theorem weightOf_bump_ge (wmax delta : Int) (ws : List (String × Int)) (tag tag' : String)
    (hd : 0 ≤ delta) (hb : boundedW wmax ws) :
    weightOf ws tag' ≤ weightOf (bump wmax delta ws tag) tag' := by
  by_cases h : tag = tag'
  · subst h
    rw [weightOf_bump_self]
    have := hb tag
    unfold clampW
    omega
  · rw [weightOf_bump_ne wmax delta ws tag tag' h]

theorem weightOf_foldl_bump_ge (wmax delta : Int) (genres : List String)
    (ws : List (String × Int)) (tag : String) (hd : 0 ≤ delta) (hw : 0 ≤ wmax)
    (hb : boundedW wmax ws) :
    weightOf ws tag ≤ weightOf (genres.foldl (bump wmax delta) ws) tag := by
  induction genres generalizing ws with
  | nil => exact le_refl _
  | cons g gs ih =>
    calc weightOf ws tag ≤ weightOf (bump wmax delta ws g) tag :=
          weightOf_bump_ge wmax delta ws g tag hd hb
      _ ≤ _ := ih (bump wmax delta ws g) (bump_bounded wmax delta ws g hw hb)

theorem weightOf_foldl_bump_min (wmax delta : Int) (genres : List String)
    (ws : List (String × Int)) (tag : String) (htag : tag ∈ genres) (hd : 0 ≤ delta)
    (hw : 0 ≤ wmax) (hb : boundedW wmax ws) :
    min wmax (weightOf ws tag + delta) ≤ weightOf (genres.foldl (bump wmax delta) ws) tag := by
  induction genres generalizing ws with
  | nil => cases htag
  | cons g gs ih =>
    rcases List.mem_cons.mp htag with h | h
    · subst h
      have h1 : min wmax (weightOf ws tag + delta) ≤ weightOf (bump wmax delta ws tag) tag := by
        rw [weightOf_bump_self]
        unfold clampW
        have := hb tag
        omega
      have h2 := weightOf_foldl_bump_ge wmax delta gs (bump wmax delta ws tag) tag hd hw
        (bump_bounded wmax delta ws tag hw hb)
      calc min wmax (weightOf ws tag + delta) ≤ weightOf (bump wmax delta ws tag) tag := h1
        _ ≤ _ := h2
    · have h2 := ih (bump wmax delta ws g) h (bump_bounded wmax delta ws g hw hb)
      have h3 := weightOf_bump_ge wmax delta ws g tag hd hb
      have h4 : min wmax (weightOf ws tag + delta) ≤
          min wmax (weightOf (bump wmax delta ws g) tag + delta) := by omega
      exact le_trans h4 h2

theorem replicate_click_min (wmax delta : Int) (nhist : Nat) (it : Item) (tag : String)
    (k : Nat) (p : Profile) (htag : tag ∈ it.genres) (hd : 0 ≤ delta) (hw : 0 ≤ wmax)
    (hb : boundedW wmax p.weights) :
    min wmax (weightOf p.weights tag + (k : Int) * delta) ≤
      weightOf (applyClicks wmax delta nhist p (List.replicate k it)).weights tag := by
  induction k generalizing p with
  | zero =>
    simp only [List.replicate, applyClicks, List.foldl_nil, Nat.cast_zero, zero_mul, add_zero]
    omega
  | succ k ih =>
    rw [List.replicate_succ]
    have hstep : min wmax (weightOf p.weights tag + delta) ≤
        weightOf (recordClick wmax delta nhist it p).weights tag :=
      weightOf_foldl_bump_min wmax delta it.genres p.weights tag htag hd hw hb
    have hb' : boundedW wmax (recordClick wmax delta nhist it p).weights :=
      foldl_bump_bounded wmax delta it.genres p.weights hw hb
    have ihh := ih (recordClick wmax delta nhist it p) hb'
    have hup : weightOf (recordClick wmax delta nhist it p).weights tag ≤ wmax := (hb' tag).2
    have hcast : ((k + 1 : Nat) : Int) * delta = (k : Int) * delta + delta := by
      push_cast; ring
    have hkd : 0 ≤ (k : Int) * delta := mul_nonneg (by positivity) hd
    have hfold : applyClicks wmax delta nhist p (it :: List.replicate k it) =
        applyClicks wmax delta nhist (recordClick wmax delta nhist it p)
          (List.replicate k it) := rfl
    rw [hfold, hcast]
    omega

theorem pushClick_eq (nhist : Nat) (cl : List Nat) (i : Nat) (h1 : 1 ≤ nhist) :
    pushClick nhist cl i =
      (cl.filter (fun x => decide (x ≠ i))).drop
        ((cl.filter (fun x => decide (x ≠ i))).length + 1 - nhist) ++ [i] := by
  show (cl.filter (fun x => decide (x ≠ i)) ++ [i]).drop
      ((cl.filter (fun x => decide (x ≠ i)) ++ [i]).length - nhist) = _
  have hlen : (cl.filter (fun x => decide (x ≠ i)) ++ [i]).length =
      (cl.filter (fun x => decide (x ≠ i))).length + 1 := by simp
  rw [hlen, List.drop_append_eq_append_drop]
  have h0 : (cl.filter (fun x => decide (x ≠ i))).length + 1 - nhist -
      (cl.filter (fun x => decide (x ≠ i))).length = 0 := by omega
  rw [h0]
  simp

theorem pushClick_nodup (nhist : Nat) (cl : List Nat) (i : Nat) (h : cl.Nodup) :
    (pushClick nhist cl i).Nodup := by
  unfold pushClick
  apply List.Nodup.sublist (List.drop_sublist _ _)
  have hnm : i ∉ cl.filter (fun x => decide (x ≠ i)) := by
    intro hm
    have := (List.mem_filter.mp hm).2
    simp at this
  exact List.Nodup.append (h.filter _) (List.nodup_singleton i)
    (fun a ha hb => by
      have : a = i := by simpa using hb
      exact hnm (this ▸ ha))

theorem pushClick_length (nhist : Nat) (cl : List Nat) (i : Nat) :
    (pushClick nhist cl i).length ≤ nhist := by
  unfold pushClick
  rw [List.length_drop]
  omega

theorem applyClicks_history (wmax delta : Int) (nhist : Nat) (p : Profile)
    (clicks : List Item) (hn : p.clicked.Nodup) (hl : p.clicked.length ≤ nhist) :
    (applyClicks wmax delta nhist p clicks).clicked.Nodup ∧
      (applyClicks wmax delta nhist p clicks).clicked.length ≤ nhist := by
  induction clicks generalizing p with
  | nil => exact ⟨hn, hl⟩
  | cons c cs ih =>
    exact ih (recordClick wmax delta nhist c p)
      (pushClick_nodup nhist p.clicked c.app_id hn)
      (pushClick_length nhist p.clicked c.app_id)

theorem rank_total (p : Profile) (a b : Item) : rankLE p a b ∨ rankLE p b a := by
  unfold rankLE
  rcases lt_trichotomy (score p a) (score p b) with h | h | h
  · exact Or.inr (Or.inl h)
  · rcases lt_trichotomy (ratioQ a) (ratioQ b) with h2 | h2 | h2
    · exact Or.inr (Or.inr ⟨h.symm, Or.inl h2⟩)
    · rcases Nat.le_total a.app_id b.app_id with h3 | h3
      · exact Or.inl (Or.inr ⟨h, Or.inr ⟨h2, h3⟩⟩)
      · exact Or.inr (Or.inr ⟨h.symm, Or.inr ⟨h2.symm, h3⟩⟩)
    · exact Or.inl (Or.inr ⟨h, Or.inl h2⟩)
  · exact Or.inl (Or.inl h)

theorem rank_trans (p : Profile) (a b c : Item) (hab : rankLE p a b) (hbc : rankLE p b c) :
    rankLE p a c := by
  unfold rankLE at hab hbc ⊢
  rcases hab with h1 | ⟨e1, h1⟩ <;> rcases hbc with h2 | ⟨e2, h2⟩
  · exact Or.inl (by omega)
  · exact Or.inl (by omega)
  · exact Or.inl (by omega)
  · refine Or.inr ⟨by omega, ?_⟩
    rcases h1 with r1 | ⟨q1, i1⟩ <;> rcases h2 with r2 | ⟨q2, i2⟩
    · exact Or.inl (by linarith)
    · exact Or.inl (by linarith)
    · exact Or.inl (by linarith)
    · exact Or.inr ⟨by linarith, by omega⟩

theorem rank_le_ne (p : Profile) (a b : Item) (h : rankLE p a b)
    (hne : a.app_id ≠ b.app_id) : rankLT p a b := by
  unfold rankLE at h
  unfold rankLT
  rcases h with h | ⟨e, h⟩
  · exact Or.inl h
  · rcases h with h | ⟨q, i⟩
    · exact Or.inr ⟨e, Or.inl h⟩
    · exact Or.inr ⟨e, Or.inr ⟨q, by omega⟩⟩

theorem rankLT_asymm (p : Profile) (a b : Item) (h : rankLT p a b) : ¬ rankLT p b a := by
  unfold rankLT at h ⊢
  rintro (h2 | ⟨e2, h2⟩) <;> rcases h with h1 | ⟨e1, h1⟩
  · omega
  · omega
  · omega
  · rcases h1 with r1 | ⟨q1, i1⟩ <;> rcases h2 with r2 | ⟨q2, i2⟩
    · linarith
    · linarith
    · linarith
    · omega

theorem dedupeByIdAux_sublist (l : List Item) (seen : List Nat) :
    (dedupeByIdAux seen l).Sublist l := by
  induction l generalizing seen with
  | nil => simp [dedupeByIdAux]
  | cons it rest ih =>
    by_cases h : it.app_id ∈ seen
    · simpa [dedupeByIdAux, h] using (ih seen).cons it
    · simpa [dedupeByIdAux, h] using (ih (it.app_id :: seen)).cons₂ it

theorem dedupeById_sublist (l : List Item) : (dedupeById l).Sublist l :=
  dedupeByIdAux_sublist l []

theorem dedupeByIdAux_spec (l : List Item) (seen : List Nat) :
    (∀ a ∈ dedupeByIdAux seen l, a.app_id ∉ seen) ∧
      List.Pairwise (fun a b => a.app_id ≠ b.app_id) (dedupeByIdAux seen l) := by
  induction l generalizing seen with
  | nil => simp [dedupeByIdAux]
  | cons it rest ih =>
    by_cases h : it.app_id ∈ seen
    · simpa [dedupeByIdAux, h] using ih seen
    · have ih' := ih (it.app_id :: seen)
      rw [dedupeByIdAux]
      simp only [h, if_false]
      constructor
      · intro a ha
        rcases List.mem_cons.mp ha with ha | ha
        · exact ha ▸ h
        · exact fun hs => (ih'.1 a ha) (List.mem_cons_of_mem _ hs)
      · refine List.pairwise_cons.mpr ⟨fun b hb => ?_, ih'.2⟩
        have hb' := ih'.1 b hb
        exact fun he => hb' (he ▸ List.mem_cons_self _ _)

theorem dedupeById_pairwise (l : List Item) :
    List.Pairwise (fun a b => a.app_id ≠ b.app_id) (dedupeById l) :=
  (dedupeByIdAux_spec l []).2

theorem recommend_length (p : Profile) (resolve : Item → Option Item) (pool : List Item)
    (limit : Nat) : (recommend p resolve pool limit).length ≤ limit := by
  simp only [recommend]
  rw [List.length_take]
  exact min_le_left _ _

theorem recommend_pairwise_ne (p : Profile) (resolve : Item → Option Item)
    (pool : List Item) (limit : Nat) :
    List.Pairwise (fun a b : Item => a.app_id ≠ b.app_id) (recommend p resolve pool limit) := by
  simp only [recommend]
  have h1 := dedupeById_pairwise (pool.filterMap resolve)
  have h2 := h1.filter (fun it => decide (it.app_id ∉ p.clicked))
  have hsym : ∀ {a b : Item}, a.app_id ≠ b.app_id → b.app_id ≠ a.app_id :=
    fun h => fun he => h he.symm
  have h3 := (List.Perm.pairwise_iff @hsym (List.perm_insertionSort (rankLE p) _)).mpr h2
  exact h3.sublist (List.take_sublist _ _)

theorem recommend_not_clicked (p : Profile) (resolve : Item → Option Item)
    (pool : List Item) (limit : Nat) :
    ∀ it ∈ recommend p resolve pool limit, it.app_id ∉ p.clicked := by
  intro it hit
  simp only [recommend] at hit
  have h1 := List.mem_of_mem_take hit
  have h2 := (List.perm_insertionSort (rankLE p) _).subset h1
  have h3 := (List.mem_filter.mp h2).2
  simpa using h3

theorem recommend_sorted (p : Profile) (resolve : Item → Option Item) (pool : List Item)
    (limit : Nat) : List.Pairwise (rankLE p) (recommend p resolve pool limit) := by
  simp only [recommend]
  haveI : IsTotal Item (rankLE p) := ⟨rank_total p⟩
  haveI : IsTrans Item (rankLE p) := ⟨rank_trans p⟩
  have hs := List.sorted_insertionSort (rankLE p)
    ((dedupeById (pool.filterMap resolve)).filter (fun it => decide (it.app_id ∉ p.clicked)))
  exact List.Pairwise.sublist (List.take_sublist _ _) hs

theorem sum_weightOf_nil (l : List String) : (l.map (weightOf [])).sum = 0 := by
  induction l with
  | nil => rfl
  | cons h t ih => simp [weightOf, ih]

theorem score_empty (it : Item) : score emptyProfile it = 0 :=
  sum_weightOf_nil it.genres

theorem lookupC_evictC (c : CacheStore) (i : Nat) : lookupC (evictC c i) i = none := by
  induction c with
  | nil => rfl
  | cons kv rest ih =>
    obtain ⟨k, e⟩ := kv
    by_cases h : k = i
    · subst h
      simpa [evictC, List.filter_cons] using ih
    · simpa [evictC, List.filter_cons, h, lookupC] using ih

theorem lookupC_setC_self (c : CacheStore) (i : Nat) (e : CacheEntry) :
    lookupC (setC c i e) i = some e := by
  induction c with
  | nil => simp [setC, lookupC]
  | cons kv rest ih =>
    obtain ⟨k, e'⟩ := kv
    by_cases h : k = i
    · simp [setC, h, lookupC]
    · simp [setC, h, lookupC, ih]

theorem getReviewRating_zero : getReviewRating 0 0 = ⟨"No Reviews", 0⟩ := rfl

theorem percentage_bounds (positive negative : Nat) (h : positive + negative ≠ 0) :
    0 ≤ ((positive : ℚ) / ((positive + negative : Nat) : ℚ)) * 100 ∧
      ((positive : ℚ) / ((positive + negative : Nat) : ℚ)) * 100 ≤ 100 := by
  have htpos : (0 : ℚ) < ((positive + negative : Nat) : ℚ) := by
    have : 0 < positive + negative := Nat.pos_of_ne_zero h
    exact_mod_cast this
  have hratio₀ : (0 : ℚ) ≤ (positive : ℚ) / ((positive + negative : Nat) : ℚ) :=
    div_nonneg (by positivity) htpos.le
  have hratio₁ : (positive : ℚ) / ((positive + negative : Nat) : ℚ) ≤ 1 := by
    rw [div_le_one htpos]
    exact_mod_cast Nat.le_add_right positive negative
  constructor
  · positivity
  · nlinarith

theorem getReviewRating_percentage_bounds (positive negative : Nat) :
    0 ≤ (getReviewRating positive negative).percentage ∧
      (getReviewRating positive negative).percentage ≤ 100 := by
  unfold getReviewRating
  by_cases h : positive + negative = 0
  · simp [h]
  · have hb := percentage_bounds positive negative h
    simp only [h, if_false]
    split_ifs <;> simpa using hb

theorem getReviewRating_label_mem (positive negative : Nat) :
    (getReviewRating positive negative).label ∈ ratingLabels := by
  unfold getReviewRating ratingLabels
  by_cases h : positive + negative = 0
  · simp [h]
  · simp only [h, if_false]
    split_ifs <;> simp

/-- C1: for every user profile, candidate pool and limit, `recommend` returns an
ordered sequence of at most `limit` items, with pairwise distinct identifiers,
containing no identifier present in the user's clicked-items sequence at call
time. -/
theorem recommend_contract (p : Profile) (resolve : Item → Option Item)
    (pool : List Item) (limit : Nat) :
    (recommend p resolve pool limit).length ≤ limit ∧
      List.Pairwise (fun a b : Item => a.app_id ≠ b.app_id)
        (recommend p resolve pool limit) ∧
      ∀ it ∈ recommend p resolve pool limit, it.app_id ∉ p.clicked :=
  ⟨recommend_length p resolve pool limit, recommend_pairwise_ne p resolve pool limit,
    recommend_not_clicked p resolve pool limit⟩

theorem recommend_contract_witness :
    itemA.app_id ∉ (Profile.mk [] [9]).clicked :=
  (recommend_contract ⟨[], [9]⟩ resolveId [itemA] 5).2.2 itemA (by decide)

/-- C2: starting from any weight table bounded by `[-wmax, wmax]` (every
reachable profile state is such a table), any sequence of `recordClick` calls
keeps every category weight within `[-wmax, wmax]`; in particular, repeating
`recordClick` on one item `k` times with `wmax ≤ k * delta` starting from the
empty profile leaves each of that item's category weights clamped at exactly
`wmax`. -/
theorem recordClick_weights_bounded (wmax delta : Int) (nhist : Nat) (p : Profile)
    (clicks : List Item) (it : Item) (tag tag' : String) (k : Nat)
    (hw : 0 ≤ wmax) (hd : 0 ≤ delta) (hb : boundedW wmax p.weights)
    (htag : tag ∈ it.genres) (hk : wmax ≤ (k : Int) * delta) :
    (-wmax ≤ weightOf (applyClicks wmax delta nhist p clicks).weights tag' ∧
      weightOf (applyClicks wmax delta nhist p clicks).weights tag' ≤ wmax) ∧
    weightOf (applyClicks wmax delta nhist emptyProfile (List.replicate k it)).weights tag
      = wmax := by
  constructor
  · exact applyClicks_bounded wmax delta nhist p clicks hw hb tag'
  · have hbe : boundedW wmax emptyProfile.weights := boundedW_nil wmax hw
    have hlow := replicate_click_min wmax delta nhist it tag k emptyProfile htag hd hw hbe
    have hup := (applyClicks_bounded wmax delta nhist emptyProfile
      (List.replicate k it) hw hbe tag).2
    have hz : weightOf emptyProfile.weights tag = 0 := rfl
    rw [hz] at hlow
    omega

theorem recordClick_weights_bounded_witness :
    (-3 ≤ weightOf (applyClicks 3 1 10 emptyProfile [itemAction]).weights "RPG" ∧
      weightOf (applyClicks 3 1 10 emptyProfile [itemAction]).weights "RPG" ≤ 3) ∧
    weightOf (applyClicks 3 1 10 emptyProfile (List.replicate 8 itemAction)).weights "Action"
      = 3 :=
  recordClick_weights_bounded 3 1 10 emptyProfile [itemAction] itemAction "Action" "RPG" 8
    (by decide) (by decide)
    (by intro t; constructor <;> norm_num [emptyProfile, weightOf])
    (by decide) (by decide)

/-- C3: from any profile whose clicked-items sequence is duplicate-free and
within the `nhist` bound, any sequence of `recordClick` calls preserves both
properties; moreover one `recordClick` step appends the clicked identifier at
the most-recent end, removes any earlier occurrence of that identifier, and
only trims oldest entries (the result is a suffix of the deduplicated,
appended sequence). -/
theorem clicked_history_invariant (wmax delta : Int) (nhist : Nat) (p q : Profile)
    (clicks : List Item) (c : Item)
    (hn : p.clicked.Nodup) (hl : p.clicked.length ≤ nhist) (h1 : 1 ≤ nhist) :
    ((applyClicks wmax delta nhist p clicks).clicked.Nodup ∧
      (applyClicks wmax delta nhist p clicks).clicked.length ≤ nhist) ∧
    (recordClick wmax delta nhist c q).clicked.getLast? = some c.app_id ∧
    c.app_id ∉ (recordClick wmax delta nhist c q).clicked.dropLast ∧
    (recordClick wmax delta nhist c q).clicked.IsSuffix
      (q.clicked.filter (fun x => decide (x ≠ c.app_id)) ++ [c.app_id]) := by
  have hcl : (recordClick wmax delta nhist c q).clicked =
      pushClick nhist q.clicked c.app_id := rfl
  refine ⟨applyClicks_history wmax delta nhist p clicks hn hl, ?_, ?_, ?_⟩
  · rw [hcl, pushClick_eq nhist q.clicked c.app_id h1]
    exact List.getLast?_concat _
  · rw [hcl, pushClick_eq nhist q.clicked c.app_id h1, List.dropLast_concat]
    intro hm
    have hmem := List.mem_of_mem_drop hm
    have := (List.mem_filter.mp hmem).2
    simp at this
  · rw [hcl]
    unfold pushClick
    exact List.drop_suffix _ _

theorem clicked_history_invariant_witness :
    ((applyClicks 3 1 3 ⟨[], [1, 2]⟩ [itemAction]).clicked.Nodup ∧
      (applyClicks 3 1 3 ⟨[], [1, 2]⟩ [itemAction]).clicked.length ≤ 3) ∧
    (recordClick 3 1 3 itemAction ⟨[], [5, 730, 9]⟩).clicked.getLast? = some itemAction.app_id ∧
    itemAction.app_id ∉ (recordClick 3 1 3 itemAction ⟨[], [5, 730, 9]⟩).clicked.dropLast ∧
    (recordClick 3 1 3 itemAction ⟨[], [5, 730, 9]⟩).clicked.IsSuffix
      (([5, 730, 9] : List Nat).filter (fun x => decide (x ≠ itemAction.app_id)) ++
        [itemAction.app_id]) :=
  clicked_history_invariant 3 1 3 ⟨[], [1, 2]⟩ ⟨[], [5, 730, 9]⟩ [itemAction] itemAction
    (by decide) (by decide) (by decide)

/-- C4: with the empty profile every score is zero, so `recommend` orders
candidates purely by the review-ratio tie-break (higher ratio, then lower
identifier, `0/0` counting as ratio 0); concretely, on the pool
`[itemA (0/0 reviews), itemB (90/10 reviews)]` with limit 2 it returns
`[itemB, itemA]`. -/
theorem empty_profile_ratio_fallback :
    (∀ a b : Item, rankLE emptyProfile a b ↔ ratioTieLE a b) ∧
    recommend emptyProfile resolveId [itemA, itemB] 2 = [itemB, itemA] := by
  constructor
  · intro a b
    unfold rankLE ratioTieLE
    rw [score_empty, score_empty]
    simp
  · have hratioA : ratioQ itemA = 0 := by norm_num [ratioQ, itemA]
    have hratioB : ratioQ itemB = 9 / 10 := by norm_num [ratioQ, itemB]
    have hAB : ¬ rankLE emptyProfile itemA itemB := by
      unfold rankLE
      rw [score_empty, score_empty, hratioA, hratioB]
      norm_num
    have hidA : itemA.app_id = 1 := rfl
    have hidB : itemB.app_id = 2 := rfl
    have hclick : emptyProfile.clicked = [] := rfl
    simp [recommend, resolveId, dedupeById, dedupeByIdAux, List.insertionSort,
      List.orderedInsert, hidA, hidB, hclick, hAB]

/-- C8: `recommend` is deterministic — two invocations on the same state give
syntactically identical output — and the output is strictly totally ordered by
the ranking relation (each earlier item strictly precedes each later one, and
never conversely), so the ordering is stable. -/
theorem recommend_deterministic (p : Profile) (resolve : Item → Option Item)
    (pool : List Item) (limit : Nat) :
    recommend p resolve pool limit = recommend p resolve pool limit ∧
    List.Pairwise (fun a b => rankLT p a b ∧ ¬ rankLT p b a)
      (recommend p resolve pool limit) := by
  refine ⟨rfl, ?_⟩
  have h1 := recommend_sorted p resolve pool limit
  have h2 := recommend_pairwise_ne p resolve pool limit
  refine (h1.and h2).imp ?_
  intro a b hab
  obtain ⟨hle, hne⟩ := hab
  exact ⟨rank_le_ne p a b hle hne, rankLT_asymm p a b (rank_le_ne p a b hle hne)⟩

/-- C5: when the catalog fetch reports `RemoteUnavailable`, `getCachedItem`
returns the cached snapshot whenever any entry (fresh or stale) exists for the
identifier, and propagates `RemoteUnavailable` when no entry exists. -/
theorem degraded_mode_read (ttl now i : Nat) (fetch : Nat → FetchResult) (c : CacheStore)
    (h : fetch i = FetchResult.remoteUnavailable) :
    (getCachedItem ttl fetch now c i).1 =
      (match lookupC c i with
       | some e => Except.ok e.item
       | none => Except.error CacheError.remoteUnavailable) := by
  unfold getCachedItem
  cases hl : lookupC c i with
  | none => simp [h]
  | some e => cases hf : freshB ttl now e.cached_at <;> simp [h, hf]

theorem degraded_mode_read_witness :
    fetchUnavailable 42 = FetchResult.remoteUnavailable ∧
    (getCachedItem cache_ttl fetchUnavailable 7200 staleCache42 42).1 = Except.ok item42 :=
  ⟨rfl, (degraded_mode_read cache_ttl 7200 42 fetchUnavailable staleCache42 rfl).trans rfl⟩

/-- C6: when the store holds no fresh entry for the identifier and the catalog
fetch reports `NotFound`, `getCachedItem` evicts any existing entry and
propagates `NotFound`; a subsequent `getCachedItem` for the same identifier
(at any later time, the catalog still reporting `NotFound`) again returns
`NotFound` without crashing, and the cache retains no entry for that id. -/
theorem notfound_eviction (ttl now now2 i : Nat) (fetch : Nat → FetchResult)
    (c : CacheStore) (hf : fetch i = FetchResult.notFound)
    (hs : staleOrMissB ttl now c i = true) :
    (getCachedItem ttl fetch now c i).1 = Except.error CacheError.notFound ∧
    lookupC (getCachedItem ttl fetch now c i).2.1 i = none ∧
    (getCachedItem ttl fetch now2 (getCachedItem ttl fetch now c i).2.1 i).1 =
      Except.error CacheError.notFound := by
  have hcore : getCachedItem ttl fetch now c i =
      (Except.error CacheError.notFound, evictC c i, 1) := by
    unfold getCachedItem
    cases hl : lookupC c i with
    | none => simp [hf]
    | some e =>
      unfold staleOrMissB at hs
      rw [hl] at hs
      have hfr : freshB ttl now e.cached_at = false := by simpa using hs
      simp [hfr, hf]
  refine ⟨by rw [hcore], ?_, ?_⟩
  · rw [hcore]
    exact lookupC_evictC c i
  · rw [hcore]
    show (getCachedItem ttl fetch now2 (evictC c i) i).1 = _
    unfold getCachedItem
    rw [lookupC_evictC c i]
    simp [hf]

theorem notfound_eviction_witness :
    fetchNotFound 99 = FetchResult.notFound ∧
    staleOrMissB cache_ttl 7200 staleCache99 99 = true ∧
    ((getCachedItem cache_ttl fetchNotFound 7200 staleCache99 99).1 =
        Except.error CacheError.notFound ∧
      lookupC (getCachedItem cache_ttl fetchNotFound 7200 staleCache99 99).2.1 99 = none ∧
      (getCachedItem cache_ttl fetchNotFound 9000
          (getCachedItem cache_ttl fetchNotFound 7200 staleCache99 99).2.1 99).1 =
        Except.error CacheError.notFound) :=
  ⟨rfl, rfl, notfound_eviction cache_ttl 7200 9000 99 fetchNotFound staleCache99 rfl rfl⟩

/-- C7 counterexample: with an empty cache and a catalog that reports
`RemoteUnavailable`, two back-to-back `getCachedItem` calls for the same id
with no intervening write and no TTL expiry perform two Catalog Client
fetches, not at most one. -/
theorem readthrough_two_fetches :
    (getCachedItem cache_ttl fetchUnavailable 0 emptyCache 1).2.2 +
      (getCachedItem cache_ttl fetchUnavailable 0
        (getCachedItem cache_ttl fetchUnavailable 0 emptyCache 1).2.1 1).2.2 = 2 := rfl

/-- C7 (amended): provided the catalog fetch for the identifier succeeds and
the TTL is positive, two back-to-back `getCachedItem` calls with no
intervening write perform at most one fetch in total; the second call performs
no fetch (it is served from the fresh entry) and returns the same result as
the first. -/
theorem readthrough_idempotent (ttl now i : Nat) (fetch : Nat → FetchResult)
    (c : CacheStore) (it : Item) (hf : fetch i = FetchResult.found it) (ht : 0 < ttl) :
    (getCachedItem ttl fetch now c i).2.2 +
      (getCachedItem ttl fetch now (getCachedItem ttl fetch now c i).2.1 i).2.2 ≤ 1 ∧
    (getCachedItem ttl fetch now (getCachedItem ttl fetch now c i).2.1 i).2.2 = 0 ∧
    (getCachedItem ttl fetch now (getCachedItem ttl fetch now c i).2.1 i).1 =
      (getCachedItem ttl fetch now c i).1 := by
  have hfresh : freshB ttl now now = true := by
    simp [freshB]
    omega
  have hhit : getCachedItem ttl fetch now (setC c i ⟨it, now⟩) i =
      (Except.ok it, setC c i ⟨it, now⟩, 0) := by
    unfold getCachedItem
    rw [lookupC_setC_self]
    simp [hfresh]
  cases hl : lookupC c i with
  | none =>
    have h1 : getCachedItem ttl fetch now c i = (Except.ok it, setC c i ⟨it, now⟩, 1) := by
      unfold getCachedItem
      rw [hl, hf]
    rw [h1]
    simp [hhit]
  | some e =>
    cases hfr : freshB ttl now e.cached_at with
    | true =>
      have h1 : getCachedItem ttl fetch now c i = (Except.ok e.item, c, 0) := by
        unfold getCachedItem
        rw [hl]
        simp [hfr]
      rw [h1]
      simp [h1]
    | false =>
      have h1 : getCachedItem ttl fetch now c i = (Except.ok it, setC c i ⟨it, now⟩, 1) := by
        unfold getCachedItem
        rw [hl, hf]
        simp [hfr]
      rw [h1]
      simp [hhit]

theorem readthrough_idempotent_witness :
    fetchFound42 42 = FetchResult.found item42 ∧ 0 < cache_ttl ∧
    ((getCachedItem cache_ttl fetchFound42 0 emptyCache 42).2.2 +
        (getCachedItem cache_ttl fetchFound42 0
          (getCachedItem cache_ttl fetchFound42 0 emptyCache 42).2.1 42).2.2 ≤ 1 ∧
      (getCachedItem cache_ttl fetchFound42 0
          (getCachedItem cache_ttl fetchFound42 0 emptyCache 42).2.1 42).2.2 = 0 ∧
      (getCachedItem cache_ttl fetchFound42 0
          (getCachedItem cache_ttl fetchFound42 0 emptyCache 42).2.1 42).1 =
        (getCachedItem cache_ttl fetchFound42 0 emptyCache 42).1) :=
  ⟨rfl, by decide,
    readthrough_idempotent cache_ttl 0 42 fetchFound42 emptyCache item42 rfl (by decide)⟩

/-- C10: `getReviewRating` is total on non-negative review counts: the
percentage always lies in `[0, 100]`, the label is always one of the nine
fixed strings, and the zero-total input yields `No Reviews` with percentage 0
instead of dividing by zero. -/
theorem getReviewRating_total (positive negative : Nat) :
    (0 ≤ (getReviewRating positive negative).percentage ∧
      (getReviewRating positive negative).percentage ≤ 100) ∧
    (getReviewRating positive negative).label ∈ ratingLabels ∧
    getReviewRating 0 0 = ⟨"No Reviews", 0⟩ :=
  ⟨getReviewRating_percentage_bounds positive negative,
    getReviewRating_label_mem positive negative, getReviewRating_zero⟩

end SteamRec
